import Mathlib

set_option maxHeartbeats 1000000

/-!
Shallow embedding of the call-hierarchy tree adapter
(src/callHierarchy/callHierarchyTree.ts): the `Call` entity and its
comparator, the async `DataSource.getChildren`, the recursive
`IdentityProvider.getId`, and the `Sorter`.

External collaborators that the repository imports but whose sources are
not available (common/strings, common/range, the `CallHierarchyModel`,
the `CallHierarchyDirection` enum, the JSON serialization used by the
identity provider) are modelled from the spec; each such definition is
marked `Modelled from the spec:` in its doc comment.
-/

/-- Modelled from the spec: opaque resource identifier; equality is
structural. `str` is the rendering returned by `uri.toString()`. -/
structure URI where
  str : String
deriving DecidableEq

/-- A source range, as in common/range: start and end positions, each a
line (row) and a column. -/
structure IRange where
  startLineNumber : Nat
  startColumn : Nat
  endLineNumber : Nat
  endColumn : Nat
deriving DecidableEq

/-- Modelled from the spec: opaque symbol descriptor with a resource
identifier (`uri`) and a source range; equality is structural
(uri + range). -/
structure CallHierarchyItem where
  uri : URI
  range : IRange
deriving DecidableEq

/-- A location inside a resource (src/unnamed/part_000). -/
structure Location where
  uri : URI
  range : IRange
deriving DecidableEq

/-- Modelled from the spec: the session-wide direction toggle,
`CallsFrom` (outgoing) or `CallsTo` (incoming). -/
inductive CallHierarchyDirection where
  | CallsFrom
  | CallsTo
deriving DecidableEq

/-- Modelled from the spec: the non-cancelling token this layer always
passes through to the external model. -/
inductive CancellationToken where
  | None
deriving DecidableEq

/-- Modelled from the spec: one result of outgoing resolution — the
target item `to` and the call-site ranges `fromRanges`. -/
structure OutgoingCall where
  «to» : CallHierarchyItem
  fromRanges : List IRange
deriving DecidableEq

/-- Modelled from the spec: one result of incoming resolution — the
discovered caller `from` and the call-site ranges `fromRanges`. -/
structure IncomingCall where
  «from» : CallHierarchyItem
  fromRanges : List IRange
deriving DecidableEq

/-- Modelled from the spec: the call-hierarchy session model, exposing
`roots` and two async resolution operations; a failed asynchronous
result is an `Except.error`. -/
structure CallHierarchyModel (ε : Type) where
  roots : List CallHierarchyItem
  resolveOutgoingCalls : CallHierarchyItem → CancellationToken → Except ε (List OutgoingCall)
  resolveIncomingCalls : CallHierarchyItem → CancellationToken → Except ε (List IncomingCall)

/-- Represents a single call in the call hierarchy (class `Call`):
item, optional locations, shared model reference, optional parent. -/
inductive Call (ε : Type) : Type where
  | mk (item : CallHierarchyItem) (locations : Option (List Location))
      (model : CallHierarchyModel ε) (parent : Option (Call ε))

variable {ε : Type}

/-- The call hierarchy item of a `Call`. -/
def Call.item : Call ε → CallHierarchyItem
  | Call.mk i _ _ _ => i

/-- The associated locations of a `Call`, if any. -/
def Call.locations : Call ε → Option (List Location)
  | Call.mk _ l _ _ => l

/-- The call hierarchy model referenced by a `Call`. -/
def Call.model : Call ε → CallHierarchyModel ε
  | Call.mk _ _ m _ => m

/-- The parent of a `Call` in the hierarchy, if any. -/
def Call.parent : Call ε → Option (Call ε)
  | Call.mk _ _ _ p => p

/-- Modelled from the spec: `compare` from common/strings — uris are
compared as opaque strings, lexicographically, three-way. -/
def strings.compare (a b : String) : Int :=
  if a < b then -1 else if b < a then 1 else 0

/-- Modelled from the spec: `Range.compareRangesUsingStarts` from
common/range — ranges compared by start position, row (start line)
first then column, both ascending. -/
def Range.compareRangesUsingStarts (a b : IRange) : Int :=
  if a.startLineNumber < b.startLineNumber then -1
  else if b.startLineNumber < a.startLineNumber then 1
  else if a.startColumn < b.startColumn then -1
  else if b.startColumn < a.startColumn then 1
  else 0

/-- Compares two calls based on their URIs and range starts
(`Call.compare`). -/
def Call.compare (a b : Call ε) : Int :=
  let res := strings.compare a.item.uri.str b.item.uri.str
  if res = 0 then Range.compareRangesUsingStarts a.item.range b.item.range else res

/-- `DataSource.hasChildren`: always true. -/
def DataSource.hasChildren : Bool := true

/-- Fetches the children of a given call or call hierarchy model
(`DataSource.getChildren`). The element is either the root container
(the model itself, `Sum.inl`) or a `Call` (`Sum.inr`); the current
direction is read from the injected accessor; a failure of the external
resolution is an `Except.error`. -/
def DataSource.getChildren (getDirection : Unit → CallHierarchyDirection)
    (element : CallHierarchyModel ε ⊕ Call ε) : Except ε (List (Call ε)) :=
  match element with
  | Sum.inl m => Except.ok (m.roots.map fun root => Call.mk root none m none)
  | Sum.inr el =>
      let model := el.model
      let item := el.item
      if getDirection () = CallHierarchyDirection.CallsFrom then
        Except.map
          (fun calls => calls.map fun call =>
            Call.mk call.«to»
              (some (call.fromRanges.map fun range => Location.mk item.uri range))
              model (some el))
          (model.resolveOutgoingCalls item CancellationToken.None)
      else
        Except.map
          (fun calls => calls.map fun call =>
            Call.mk call.«from»
              (some (call.fromRanges.map fun range => Location.mk call.«from».uri range))
              model (some el))
          (model.resolveIncomingCalls item CancellationToken.None)

/-- `Sorter.compare`: trivial delegation to `Call.compare`. -/
def Sorter.compare (element otherElement : Call ε) : Int :=
  Call.compare element otherElement

/-- Modelled from the spec: the direction tag that starts each level of
an identity key (the serialized `CallHierarchyDirection` value). -/
def dirTag : CallHierarchyDirection → String
  | CallHierarchyDirection.CallsFrom => "callsFrom"
  | CallHierarchyDirection.CallsTo => "callsTo"

/-- JSON string escaping of a single character: quote and backslash are
escaped with a backslash, every other character stands for itself. -/
def escChar (c : Char) : List Char :=
  if c = '"' then ['\\', '"'] else if c = '\\' then ['\\', '\\'] else [c]

/-- JSON string escaping of a character list. -/
def escape : List Char → List Char
  | [] => []
  | c :: cs => escChar c ++ escape cs

/-- Modelled from the spec: `JSON.stringify(element.item.uri)` — a
stable injective serialization of the uri, a quoted escaped string. -/
def JSONstringifyURI (u : URI) : String :=
  String.mk ('"' :: (escape u.str.data ++ ['"']))

/-- Decimal digit characters of a natural number, most significant
first. -/
def natChars (n : Nat) : List Char :=
  if n = 0 then ['0'] else ((Nat.digits 10 n).map Nat.digitChar).reverse

/-- Modelled from the spec: the character list of
`JSON.stringify(element.item.range)` — the JSON object of the four
range fields in declaration order. -/
def rangeChars (r : IRange) : List Char :=
  "\x7b\"startLineNumber\":".data ++ natChars r.startLineNumber
    ++ ",\"startColumn\":".data ++ natChars r.startColumn
    ++ ",\"endLineNumber\":".data ++ natChars r.endLineNumber
    ++ ",\"endColumn\":".data ++ natChars r.endColumn ++ ['\x7d']

/-- Modelled from the spec: `JSON.stringify(element.item.range)`. -/
def JSONstringifyRange (r : IRange) : String :=
  String.mk (rangeChars r)

/-- Generates a unique ID for a call, including its parent hierarchy
(`IdentityProvider.getId`): direction tag + serialized uri + serialized
range, with the parent's id appended when a parent exists. -/
def IdentityProvider.getId (getDirection : Unit → CallHierarchyDirection) :
    Call ε → String
  | Call.mk item _ _ (some p) =>
      dirTag (getDirection ()) ++ JSONstringifyURI item.uri ++ JSONstringifyRange item.range
        ++ IdentityProvider.getId getDirection p
  | Call.mk item _ _ none =>
      dirTag (getDirection ()) ++ JSONstringifyURI item.uri ++ JSONstringifyRange item.range

/-- The ancestor chain of a `Call`: its own item followed by the items
of its parents, root last. -/
def Call.chain : Call ε → List CallHierarchyItem
  | Call.mk item _ _ (some p) => item :: Call.chain p
  | Call.mk item _ _ none => [item]

/-! ### The sort key determined by `Call.compare` -/

/-- The sort key a `Call` is ordered by: uri string, then start line,
then start column. -/
def sortKey (c : Call ε) : String × Nat × Nat :=
  (c.item.uri.str, c.item.range.startLineNumber, c.item.range.startColumn)

/-- Strict lexicographic order on sort keys. -/
def keyLt (x y : String × Nat × Nat) : Prop :=
  x.1 < y.1 ∨ (x.1 = y.1 ∧ (x.2.1 < y.2.1 ∨ (x.2.1 = y.2.1 ∧ x.2.2 < y.2.2)))

lemma strings.compare_of_lt {a b : String} (h : a < b) : strings.compare a b = -1 := by
  simp [strings.compare, h]

lemma strings.compare_of_eq {a b : String} (h : a = b) : strings.compare a b = 0 := by
  subst h; simp [strings.compare, lt_irrefl]

lemma strings.compare_of_gt {a b : String} (h : b < a) : strings.compare a b = 1 := by
  simp [strings.compare, h, lt_asymm h]

lemma compare_of_uri_eq {a b : Call ε} (h : a.item.uri.str = b.item.uri.str) :
    Call.compare a b = Range.compareRangesUsingStarts a.item.range b.item.range := by
  simp [Call.compare, strings.compare_of_eq h]

lemma compare_of_uri_lt {a b : Call ε} (h : a.item.uri.str < b.item.uri.str) :
    Call.compare a b = -1 := by
  simp [Call.compare, strings.compare_of_lt h]

lemma compare_of_uri_gt {a b : Call ε} (h : b.item.uri.str < a.item.uri.str) :
    Call.compare a b = 1 := by
  simp [Call.compare, strings.compare_of_gt h]

/-- `Call.compare` is `-1`, `0` or `1` according to the lexicographic
comparison of the two sort keys. -/
lemma compare_trichot (a b : Call ε) :
    (Call.compare a b = -1 ∧ keyLt (sortKey a) (sortKey b))
    ∨ (Call.compare a b = 0 ∧ sortKey a = sortKey b)
    ∨ (Call.compare a b = 1 ∧ keyLt (sortKey b) (sortKey a)) := by
  rcases lt_trichotomy a.item.uri.str b.item.uri.str with hu | hu | hu
  · exact Or.inl ⟨compare_of_uri_lt hu, Or.inl hu⟩
  · rw [compare_of_uri_eq hu]
    unfold Range.compareRangesUsingStarts sortKey keyLt
    split_ifs with h1 h2 h3 h4 <;> simp_all <;> omega
  · exact Or.inr (Or.inr ⟨compare_of_uri_gt hu, Or.inl hu⟩)

lemma keyLt_irrefl (x : String × Nat × Nat) : ¬ keyLt x x := by
  unfold keyLt
  rintro (h | ⟨-, h | ⟨-, h⟩⟩) <;> exact lt_irrefl _ h

lemma keyLt_asymm {x y : String × Nat × Nat} (h : keyLt x y) : ¬ keyLt y x := by
  unfold keyLt at h ⊢
  rintro (h' | ⟨e', h'⟩) <;> rcases h with h | ⟨e, h⟩
  · exact lt_asymm h h'
  · exact absurd h' (by rw [e]; exact lt_irrefl _)
  · exact absurd h (by rw [e']; exact lt_irrefl _)
  · rcases h with h | ⟨e2, h⟩ <;> rcases h' with h' | ⟨e2', h'⟩ <;> omega

lemma keyLt_ne {x y : String × Nat × Nat} (h : keyLt x y) : x ≠ y := by
  rintro rfl; exact keyLt_irrefl x h

lemma keyLt_trans {x y z : String × Nat × Nat}
    (h1 : keyLt x y) (h2 : keyLt y z) : keyLt x z := by
  unfold keyLt at h1 h2 ⊢
  rcases h1 with h1 | ⟨e1, h1⟩ <;> rcases h2 with h2 | ⟨e2, h2⟩
  · exact Or.inl (lt_trans h1 h2)
  · exact Or.inl (e2 ▸ h1)
  · exact Or.inl (e1 ▸ h2)
  · refine Or.inr ⟨e1.trans e2, ?_⟩
    rcases h1 with h1 | ⟨f1, h1⟩ <;> rcases h2 with h2 | ⟨f2, h2⟩ <;> omega

lemma compare_eq_zero_iff (a b : Call ε) :
    Call.compare a b = 0 ↔ sortKey a = sortKey b := by
  rcases compare_trichot a b with ⟨hc, hk⟩ | ⟨hc, hk⟩ | ⟨hc, hk⟩
  · rw [hc]; simp [keyLt_ne hk]
  · rw [hc]; simp [hk]
  · rw [hc]; simp [(keyLt_ne hk).symm]

lemma compare_neg_iff (a b : Call ε) :
    Call.compare a b < 0 ↔ keyLt (sortKey a) (sortKey b) := by
  rcases compare_trichot a b with ⟨hc, hk⟩ | ⟨hc, hk⟩ | ⟨hc, hk⟩
  · rw [hc]; simp [hk]
  · rw [hc]; simpa using fun h => keyLt_ne h hk
  · rw [hc]
    constructor
    · omega
    · exact fun h => absurd h (keyLt_asymm hk)

lemma compare_pos_iff (a b : Call ε) :
    0 < Call.compare a b ↔ keyLt (sortKey b) (sortKey a) := by
  rcases compare_trichot a b with ⟨hc, hk⟩ | ⟨hc, hk⟩ | ⟨hc, hk⟩
  · rw [hc]
    constructor
    · omega
    · exact fun h => absurd h (keyLt_asymm hk)
  · rw [hc]; simpa using fun h => keyLt_ne h hk.symm
  · rw [hc]; simp [hk]

lemma compare_self (a : Call ε) : Call.compare a a = 0 :=
  (compare_eq_zero_iff a a).mpr rfl

/-- C5: `Call.compare` is a total three-way order: on `Call`s with
pairwise distinct (uri, range-start) sort keys it is antisymmetric
(opposite signs, in particular never zero) and transitive, and
`compare d d = 0` for every `Call` d. -/
theorem compare_is_total_three_way_order (a b c : Call ε)
    (hab : sortKey a ≠ sortKey b) (hbc : sortKey b ≠ sortKey c)
    (hac : sortKey a ≠ sortKey c) :
    Call.compare a b ≠ 0
    ∧ (Call.compare a b < 0 ↔ 0 < Call.compare b a)
    ∧ (Call.compare a b < 0 → Call.compare b c < 0 → Call.compare a c < 0)
    ∧ (∀ d : Call ε, Call.compare d d = 0) := by
  refine ⟨fun h => hab ((compare_eq_zero_iff a b).mp h), ?_, ?_, compare_self⟩
  · rw [compare_neg_iff, compare_pos_iff]
  · rw [compare_neg_iff, compare_neg_iff, compare_neg_iff]
    exact keyLt_trans

/-- C6: when the two items' uri strings are equal, `Call.compare` is
exactly the start-position comparison: its sign is determined by the
range start positions only, row (start line) first then column, both
ascending. -/
theorem compare_tie_break_by_range_start (a b : Call ε)
    (h : a.item.uri.str = b.item.uri.str) :
    Call.compare a b = Range.compareRangesUsingStarts a.item.range b.item.range
    ∧ (Call.compare a b < 0 ↔
        (a.item.range.startLineNumber < b.item.range.startLineNumber
          ∨ (a.item.range.startLineNumber = b.item.range.startLineNumber
              ∧ a.item.range.startColumn < b.item.range.startColumn)))
    ∧ (Call.compare a b = 0 ↔
        (a.item.range.startLineNumber = b.item.range.startLineNumber
          ∧ a.item.range.startColumn = b.item.range.startColumn))
    ∧ (0 < Call.compare a b ↔
        (b.item.range.startLineNumber < a.item.range.startLineNumber
          ∨ (b.item.range.startLineNumber = a.item.range.startLineNumber
              ∧ b.item.range.startColumn < a.item.range.startColumn))) := by
  refine ⟨compare_of_uri_eq h, ?_, ?_, ?_⟩
  · rw [compare_neg_iff]
    unfold keyLt sortKey
    simp [h, lt_irrefl]
  · rw [compare_eq_zero_iff]
    unfold sortKey
    simp [Prod.ext_iff, h]
  · rw [compare_pos_iff]
    unfold keyLt sortKey
    simp [h, lt_irrefl]

/-- C7: `Call.compare` depends only on the two nodes' own item identity
(uri and range): two pairs of `Call`s whose items agree pairwise (even
over different error types, with arbitrary locations, model and parent)
compare identically. -/
theorem compare_depends_only_on_item {ε' : Type} (a b : Call ε) (a' b' : Call ε')
    (ha : a.item.uri = a'.item.uri) (hra : a.item.range = a'.item.range)
    (hb : b.item.uri = b'.item.uri) (hrb : b.item.range = b'.item.range) :
    Call.compare a b = Call.compare a' b' := by
  simp only [Call.compare, ha, hra, hb, hrb]

/-! ### `DataSource.getChildren` -/

@[simp] lemma Call.item_mk (i : CallHierarchyItem) (l : Option (List Location))
    (m : CallHierarchyModel ε) (p : Option (Call ε)) : (Call.mk i l m p).item = i := rfl

@[simp] lemma Call.locations_mk (i : CallHierarchyItem) (l : Option (List Location))
    (m : CallHierarchyModel ε) (p : Option (Call ε)) : (Call.mk i l m p).locations = l := rfl

@[simp] lemma Call.model_mk (i : CallHierarchyItem) (l : Option (List Location))
    (m : CallHierarchyModel ε) (p : Option (Call ε)) : (Call.mk i l m p).model = m := rfl

@[simp] lemma Call.parent_mk (i : CallHierarchyItem) (l : Option (List Location))
    (m : CallHierarchyModel ε) (p : Option (Call ε)) : (Call.mk i l m p).parent = p := rfl

lemma exceptMap_ok {α β : Type} {f : α → β} {e : Except ε α} {y : β}
    (h : Except.map f e = Except.ok y) : ∃ x, e = Except.ok x ∧ y = f x := by
  cases e with
  | error err => simp [Except.map] at h
  | ok x => simp [Except.map] at h; exact ⟨x, rfl, h.symm⟩

lemma getChildren_inl (g : Unit → CallHierarchyDirection) (m : CallHierarchyModel ε) :
    DataSource.getChildren g (Sum.inl m) =
      Except.ok (m.roots.map fun root => Call.mk root none m none) := rfl

lemma getChildren_inr_from (g : Unit → CallHierarchyDirection) (el : Call ε)
    (h : g () = CallHierarchyDirection.CallsFrom) :
    DataSource.getChildren g (Sum.inr el) =
      Except.map
        (fun calls => calls.map fun call =>
          Call.mk call.«to»
            (some (call.fromRanges.map fun range => Location.mk el.item.uri range))
            el.model (some el))
        (el.model.resolveOutgoingCalls el.item CancellationToken.None) := by
  simp [DataSource.getChildren, h]

lemma getChildren_inr_to (g : Unit → CallHierarchyDirection) (el : Call ε)
    (h : g () = CallHierarchyDirection.CallsTo) :
    DataSource.getChildren g (Sum.inr el) =
      Except.map
        (fun calls => calls.map fun call =>
          Call.mk call.«from»
            (some (call.fromRanges.map fun range => Location.mk call.«from».uri range))
            el.model (some el))
        (el.model.resolveIncomingCalls el.item CancellationToken.None) := by
  simp [DataSource.getChildren, h]

/-- C2: expanding the root container (the model itself) yields exactly
one `Call` per root item, in the roots' order, each with no locations
and no parent (and sharing the model). -/
theorem getChildren_model_roots (g : Unit → CallHierarchyDirection)
    (m : CallHierarchyModel ε) :
    ∃ cs, DataSource.getChildren g (Sum.inl m) = Except.ok cs
      ∧ cs.length = m.roots.length
      ∧ ∀ (i : Nat) (c : Call ε), cs[i]? = some c →
          m.roots[i]? = some c.item ∧ c.locations = none
            ∧ c.parent = none ∧ c.model = m := by
  refine ⟨_, getChildren_inl g m, by simp, ?_⟩
  intro i c hc
  rw [List.getElem?_map] at hc
  cases hr : m.roots[i]? with
  | none => rw [hr] at hc; simp at hc
  | some r =>
      rw [hr] at hc
      simp only [Option.map_some'] at hc
      cases hc
      simp [hr]

/-- C1: for every expansion of a `Call`, under `CallsFrom` every child
location's uri is the expanded element's item uri; under `CallsTo`
every child location's uri is the discovered caller's uri, i.e. the
child's own item uri. -/
theorem getChildren_location_uris (g : Unit → CallHierarchyDirection)
    (el : Call ε) (cs : List (Call ε))
    (h : DataSource.getChildren g (Sum.inr el) = Except.ok cs) :
    (g () = CallHierarchyDirection.CallsFrom →
      ∀ c ∈ cs, ∀ locs, c.locations = some locs → ∀ l ∈ locs, l.uri = el.item.uri)
    ∧ (g () = CallHierarchyDirection.CallsTo →
      ∀ c ∈ cs, ∀ locs, c.locations = some locs → ∀ l ∈ locs, l.uri = c.item.uri) := by
  constructor <;> intro hd
  · rw [getChildren_inr_from g el hd] at h
    obtain ⟨outs, -, rfl⟩ := exceptMap_ok h
    rintro c hc locs hlocs l hl
    obtain ⟨oc, -, rfl⟩ := List.mem_map.mp hc
    simp only [Call.locations_mk, Option.some.injEq] at hlocs
    subst hlocs
    obtain ⟨r, -, rfl⟩ := List.mem_map.mp hl
    rfl
  · rw [getChildren_inr_to g el hd] at h
    obtain ⟨ins, -, rfl⟩ := exceptMap_ok h
    rintro c hc locs hlocs l hl
    obtain ⟨ic, -, rfl⟩ := List.mem_map.mp hc
    simp only [Call.locations_mk, Option.some.injEq] at hlocs
    subst hlocs
    obtain ⟨r, -, rfl⟩ := List.mem_map.mp hl
    rfl

/-- C8: every `Call` produced by `DataSource.getChildren` satisfies
`locations = none` iff `parent = none`: root expansion gives both
`none`, expanding a `Call` gives both defined (with the expanded
element as parent). -/
theorem getChildren_locations_iff_parent (g : Unit → CallHierarchyDirection) :
    (∀ (m : CallHierarchyModel ε) cs,
        DataSource.getChildren g (Sum.inl m) = Except.ok cs →
        ∀ c ∈ cs, c.locations = none ∧ c.parent = none)
    ∧ (∀ (el : Call ε) cs,
        DataSource.getChildren g (Sum.inr el) = Except.ok cs →
        ∀ c ∈ cs, (∃ locs, c.locations = some locs) ∧ c.parent = some el)
    ∧ (∀ (e : CallHierarchyModel ε ⊕ Call ε) cs,
        DataSource.getChildren g e = Except.ok cs →
        ∀ c ∈ cs, (c.locations = none ↔ c.parent = none)) := by
  have hroot : ∀ (m : CallHierarchyModel ε) cs,
      DataSource.getChildren g (Sum.inl m) = Except.ok cs →
      ∀ c ∈ cs, c.locations = none ∧ c.parent = none := by
    intro m cs h c hc
    rw [getChildren_inl] at h
    cases h
    obtain ⟨r, -, rfl⟩ := List.mem_map.mp hc
    exact ⟨rfl, rfl⟩
  have hchild : ∀ (el : Call ε) cs,
      DataSource.getChildren g (Sum.inr el) = Except.ok cs →
      ∀ c ∈ cs, (∃ locs, c.locations = some locs) ∧ c.parent = some el := by
    intro el cs h c hc
    cases hd : g () with
    | CallsFrom =>
        rw [getChildren_inr_from g el hd] at h
        obtain ⟨outs, -, rfl⟩ := exceptMap_ok h
        obtain ⟨oc, -, rfl⟩ := List.mem_map.mp hc
        exact ⟨⟨_, rfl⟩, rfl⟩
    | CallsTo =>
        rw [getChildren_inr_to g el hd] at h
        obtain ⟨ins, -, rfl⟩ := exceptMap_ok h
        obtain ⟨ic, -, rfl⟩ := List.mem_map.mp hc
        exact ⟨⟨_, rfl⟩, rfl⟩
  refine ⟨hroot, hchild, ?_⟩
  intro e cs h c hc
  cases e with
  | inl m =>
      obtain ⟨h1, h2⟩ := hroot m cs h c hc
      simp [h1, h2]
  | inr el =>
      obtain ⟨⟨locs, h1⟩, h2⟩ := hchild el cs h c hc
      simp [h1, h2]

/-- C9: a failure of the external resolution propagates unchanged
through `DataSource.getChildren`: the same error, no translation and no
fallback result. -/
theorem getChildren_propagates_errors (g : Unit → CallHierarchyDirection)
    (el : Call ε) (err : ε) :
    (g () = CallHierarchyDirection.CallsFrom →
      el.model.resolveOutgoingCalls el.item CancellationToken.None = Except.error err →
      DataSource.getChildren g (Sum.inr el) = Except.error err)
    ∧ (g () = CallHierarchyDirection.CallsTo →
      el.model.resolveIncomingCalls el.item CancellationToken.None = Except.error err →
      DataSource.getChildren g (Sum.inr el) = Except.error err) := by
  constructor <;> intro hd hres
  · rw [getChildren_inr_from g el hd, hres]; rfl
  · rw [getChildren_inr_to g el hd, hres]; rfl

/-- C10: expanding a `Call` yields exactly one child per result of the
external resolution, in the resolution's order; each child's locations
list has exactly one `Location` per entry of that result's
`fromRanges`, in the same order, and each child's model is the
element's model and its parent is the element. -/
theorem getChildren_call_shape (g : Unit → CallHierarchyDirection) (el : Call ε) :
    (∀ outs, g () = CallHierarchyDirection.CallsFrom →
      el.model.resolveOutgoingCalls el.item CancellationToken.None = Except.ok outs →
      ∃ cs, DataSource.getChildren g (Sum.inr el) = Except.ok cs
        ∧ cs.length = outs.length
        ∧ ∀ (i : Nat) (c : Call ε), cs[i]? = some c → ∃ oc, outs[i]? = some oc
            ∧ c.item = oc.«to» ∧ c.model = el.model ∧ c.parent = some el
            ∧ ∃ locs, c.locations = some locs
                ∧ locs.length = oc.fromRanges.length
                ∧ ∀ (j : Nat) (l : Location), locs[j]? = some l → oc.fromRanges[j]? = some l.range)
    ∧ (∀ ins, g () = CallHierarchyDirection.CallsTo →
      el.model.resolveIncomingCalls el.item CancellationToken.None = Except.ok ins →
      ∃ cs, DataSource.getChildren g (Sum.inr el) = Except.ok cs
        ∧ cs.length = ins.length
        ∧ ∀ (i : Nat) (c : Call ε), cs[i]? = some c → ∃ ic, ins[i]? = some ic
            ∧ c.item = ic.«from» ∧ c.model = el.model ∧ c.parent = some el
            ∧ ∃ locs, c.locations = some locs
                ∧ locs.length = ic.fromRanges.length
                ∧ ∀ (j : Nat) (l : Location), locs[j]? = some l → ic.fromRanges[j]? = some l.range) := by
  constructor <;> intro res hd hres
  · rw [getChildren_inr_from g el hd, hres]
    refine ⟨_, rfl, by simp, ?_⟩
    intro i c hc
    rw [List.getElem?_map] at hc
    cases hr : res[i]? with
    | none => rw [hr] at hc; simp at hc
    | some oc =>
        rw [hr] at hc
        simp only [Option.map_some'] at hc
        cases hc
        refine ⟨oc, rfl, rfl, rfl, rfl, _, rfl, by simp, ?_⟩
        intro j l hl
        rw [List.getElem?_map] at hl
        cases hj : oc.fromRanges[j]? with
        | none => rw [hj] at hl; simp at hl
        | some r => rw [hj] at hl; simp only [Option.map_some'] at hl; cases hl; rfl
  · rw [getChildren_inr_to g el hd, hres]
    refine ⟨_, rfl, by simp, ?_⟩
    intro i c hc
    rw [List.getElem?_map] at hc
    cases hr : res[i]? with
    | none => rw [hr] at hc; simp at hc
    | some ic =>
        rw [hr] at hc
        simp only [Option.map_some'] at hc
        cases hc
        refine ⟨ic, rfl, rfl, rfl, rfl, _, rfl, by simp, ?_⟩
        intro j l hl
        rw [List.getElem?_map] at hl
        cases hj : ic.fromRanges[j]? with
        | none => rw [hj] at hl; simp at hl
        | some r => rw [hj] at hl; simp only [Option.map_some'] at hl; cases hl; rfl

/-! ### Injectivity of the identity-key serialization -/

/-- Decoder for the quoted-string part of an identity key: reads an
escaped string up to its closing unescaped quote, returning the decoded
characters and the remainder. -/
def unesc : List Char → Option (List Char × List Char)
  | [] => none
  | [c] => if c = '"' then some ([], []) else none
  | c :: d :: rest =>
      if c = '\\' then (unesc rest).map (fun p => (d :: p.1, p.2))
      else if c = '"' then some ([], d :: rest)
      else (unesc (d :: rest)).map (fun p => (c :: p.1, p.2))

lemma unesc_escape : ∀ (s : List Char) (r : List Char),
    unesc (escape s ++ '"' :: r) = some (s, r) := by
  intro s
  induction s with
  | nil =>
      intro r
      cases r with
      | nil => rfl
      | cons x xs => rfl
  | cons c cs ih =>
      intro r
      by_cases h1 : c = '"'
      · subst h1
        have hesc : escape ('"' :: cs) ++ '"' :: r = '\\' :: '"' :: (escape cs ++ '"' :: r) := by
          simp [escape, escChar]
        rw [hesc]
        have e : unesc ('\\' :: '"' :: (escape cs ++ '"' :: r))
            = (unesc (escape cs ++ '"' :: r)).map (fun p => ('"' :: p.1, p.2)) := rfl
        rw [e, ih r]
        rfl
      · by_cases h2 : c = '\\'
        · subst h2
          have hesc : escape ('\\' :: cs) ++ '"' :: r
              = '\\' :: '\\' :: (escape cs ++ '"' :: r) := by
            simp [escape, escChar]
          rw [hesc]
          have e : unesc ('\\' :: '\\' :: (escape cs ++ '"' :: r))
              = (unesc (escape cs ++ '"' :: r)).map (fun p => ('\\' :: p.1, p.2)) := rfl
          rw [e, ih r]
          rfl
        · have hesc : escape (c :: cs) ++ '"' :: r = c :: (escape cs ++ '"' :: r) := by
            simp [escape, escChar, h1, h2]
          rw [hesc]
          rcases hsplit : escape cs ++ '"' :: r with - | ⟨d, rest⟩
          · exact absurd hsplit (by simp)
          · have e : unesc (c :: d :: rest)
                = (unesc (d :: rest)).map (fun p => (c :: p.1, p.2)) := by
              show (if c = '\\' then (unesc rest).map (fun p => (d :: p.1, p.2))
                else if c = '"' then some ([], d :: rest)
                else (unesc (d :: rest)).map (fun p => (c :: p.1, p.2))) = _
              rw [if_neg h2, if_neg h1]
            rw [e, ← hsplit, ih r]
            rfl

lemma escape_quote_inj {s1 s2 r1 r2 : List Char}
    (h : escape s1 ++ '"' :: r1 = escape s2 ++ '"' :: r2) : s1 = s2 ∧ r1 = r2 := by
  have h1 := unesc_escape s1 r1
  rw [h, unesc_escape s2 r2] at h1
  simpa using h1.symm

lemma digitChar_isDigit : ∀ d < 10, (Nat.digitChar d).isDigit = true := by decide

lemma digitChar_injOn : ∀ d1 < 10, ∀ d2 < 10,
    Nat.digitChar d1 = Nat.digitChar d2 → d1 = d2 := by decide

lemma natChars_isDigit (n : Nat) : ∀ c ∈ natChars n, c.isDigit = true := by
  intro c hc
  unfold natChars at hc
  split_ifs at hc with h
  · simp only [List.mem_singleton] at hc
    subst hc; decide
  · rw [List.mem_reverse] at hc
    obtain ⟨d, hd, rfl⟩ := List.mem_map.mp hc
    exact digitChar_isDigit d (Nat.digits_lt_base (by omega) hd)

lemma map_digitChar_inj : ∀ {l1 l2 : List Nat},
    (∀ d ∈ l1, d < 10) → (∀ d ∈ l2, d < 10) →
    l1.map Nat.digitChar = l2.map Nat.digitChar → l1 = l2 := by
  intro l1
  induction l1 with
  | nil =>
      intro l2 _ _ h
      cases l2 with
      | nil => rfl
      | cons d ds => simp at h
  | cons c cs ih =>
      intro l2 hb1 hb2 h
      cases l2 with
      | nil => simp at h
      | cons d ds =>
          simp only [List.map_cons, List.cons.injEq] at h
          have hc : c = d :=
            digitChar_injOn c (hb1 c (List.mem_cons_self c cs))
              d (hb2 d (List.mem_cons_self d ds)) h.1
          have ht : cs = ds :=
            ih (fun x hx => hb1 x (List.mem_cons_of_mem _ hx))
              (fun x hx => hb2 x (List.mem_cons_of_mem _ hx)) h.2
          rw [hc, ht]

lemma natChars_inj {m n : Nat} (h : natChars m = natChars n) : m = n := by
  unfold natChars at h
  split_ifs at h with h1 h2 h2
  · omega
  · exfalso
    have hrev : (List.map Nat.digitChar (Nat.digits 10 n)).reverse = ['0'] := h.symm
    have hmap : List.map Nat.digitChar (Nat.digits 10 n) = ['0'] := by
      have := congrArg List.reverse hrev
      simpa using this
    cases hd : Nat.digits 10 n with
    | nil => rw [hd] at hmap; simp at hmap
    | cons d ds =>
        rw [hd] at hmap
        simp only [List.map_cons, List.cons.injEq] at hmap
        have hds : ds = [] := by
          cases ds with
          | nil => rfl
          | cons a as => exact absurd hmap.2 (by simp)
        have hlt : d < 10 := Nat.digits_lt_base (by omega)
          (by rw [hd]; exact List.mem_cons_self d ds)
        have hd0 : d = 0 := digitChar_injOn d hlt 0 (by omega) (by rw [hmap.1]; rfl)
        have hdig : Nat.digits 10 n = [0] := by rw [hd, hds, hd0]
        have hn := Nat.ofDigits_digits 10 n
        rw [hdig] at hn
        simp [Nat.ofDigits] at hn
        omega
  · exfalso
    have hmap : List.map Nat.digitChar (Nat.digits 10 m) = ['0'] := by
      have := congrArg List.reverse h
      simpa using this
    cases hd : Nat.digits 10 m with
    | nil => rw [hd] at hmap; simp at hmap
    | cons d ds =>
        rw [hd] at hmap
        simp only [List.map_cons, List.cons.injEq] at hmap
        have hds : ds = [] := by
          cases ds with
          | nil => rfl
          | cons a as => exact absurd hmap.2 (by simp)
        have hlt : d < 10 := Nat.digits_lt_base (by omega)
          (by rw [hd]; exact List.mem_cons_self d ds)
        have hd0 : d = 0 := digitChar_injOn d hlt 0 (by omega) (by rw [hmap.1]; rfl)
        have hdig : Nat.digits 10 m = [0] := by rw [hd, hds, hd0]
        have hm := Nat.ofDigits_digits 10 m
        rw [hdig] at hm
        simp [Nat.ofDigits] at hm
        omega
  · have h' := congrArg List.reverse h
    simp only [List.reverse_reverse] at h'
    have hdig : Nat.digits 10 m = Nat.digits 10 n :=
      map_digitChar_inj
        (fun d hd => Nat.digits_lt_base (by omega) hd)
        (fun d hd => Nat.digits_lt_base (by omega) hd) h'
    have := congrArg (Nat.ofDigits 10) hdig
    rwa [Nat.ofDigits_digits, Nat.ofDigits_digits] at this

lemma digitRun_split : ∀ (l1 l2 : List Char) {t1 t2 : Char} {r1 r2 : List Char},
    (∀ x ∈ l1, x.isDigit = true) → (∀ x ∈ l2, x.isDigit = true) →
    t1.isDigit = false → t2.isDigit = false →
    l1 ++ t1 :: r1 = l2 ++ t2 :: r2 → l1 = l2 ∧ t1 = t2 ∧ r1 = r2 := by
  intro l1
  induction l1 with
  | nil =>
      intro l2 t1 t2 r1 r2 h1 h2 ht1 ht2 h
      cases l2 with
      | nil => simpa using h
      | cons d ds =>
          exfalso
          simp only [List.nil_append, List.cons_append, List.cons.injEq] at h
          have hd := h2 d (List.mem_cons_self d ds)
          rw [← h.1, ht1] at hd
          simp at hd
  | cons c cs ih =>
      intro l2 t1 t2 r1 r2 h1 h2 ht1 ht2 h
      cases l2 with
      | nil =>
          exfalso
          simp only [List.nil_append, List.cons_append, List.cons.injEq] at h
          have hc := h1 c (List.mem_cons_self c cs)
          rw [h.1, ht2] at hc
          simp at hc
      | cons d ds =>
          simp only [List.cons_append, List.cons.injEq] at h
          obtain ⟨rfl, h'⟩ := h
          obtain ⟨e1, e2, e3⟩ := ih ds
            (fun x hx => h1 x (List.mem_cons_of_mem _ hx))
            (fun x hx => h2 x (List.mem_cons_of_mem _ hx)) ht1 ht2 h'
          exact ⟨by rw [e1], e2, e3⟩

lemma natRun_step {a1 a2 : Nat} {t : Char} {r1 r2 : List Char}
    (h : natChars a1 ++ t :: r1 = natChars a2 ++ t :: r2)
    (ht : t.isDigit = false) : a1 = a2 ∧ r1 = r2 := by
  obtain ⟨e1, -, e3⟩ := digitRun_split (natChars a1) (natChars a2)
    (natChars_isDigit a1) (natChars_isDigit a2) ht ht h
  exact ⟨natChars_inj e1, e3⟩

lemma rangeChars_split {r1 r2 : IRange} {s1 s2 : List Char}
    (h : rangeChars r1 ++ s1 = rangeChars r2 ++ s2) : r1 = r2 ∧ s1 = s2 := by
  unfold rangeChars at h
  simp only [List.append_assoc, List.cons_append, List.nil_append,
    List.cons.injEq, true_and] at h
  obtain ⟨ea, h⟩ := natRun_step h (by decide)
  simp only [List.cons.injEq, true_and] at h
  obtain ⟨eb, h⟩ := natRun_step h (by decide)
  simp only [List.cons.injEq, true_and] at h
  obtain ⟨ec, h⟩ := natRun_step h (by decide)
  simp only [List.cons.injEq, true_and] at h
  obtain ⟨ed, h⟩ := natRun_step h (by decide)
  refine ⟨?_, h⟩
  cases r1
  cases r2
  simp_all

lemma dirTag_split {d1 d2 : CallHierarchyDirection} {x1 x2 : List Char}
    (h : (dirTag d1).data ++ x1 = (dirTag d2).data ++ x2) : d1 = d2 ∧ x1 = x2 := by
  cases d1 <;> cases d2 <;> simp only [dirTag] at h
  · exact ⟨rfl, List.append_cancel_left h⟩
  · exact absurd h (by simp)
  · exact absurd h (by simp)
  · exact ⟨rfl, List.append_cancel_left h⟩

/-- One level of an identity key: direction tag, serialized uri,
serialized range. -/
def levelChars (d : CallHierarchyDirection) (it : CallHierarchyItem) : List Char :=
  (dirTag d).data ++ (JSONstringifyURI it.uri).data ++ (JSONstringifyRange it.range).data

lemma URI.ext' {u v : URI} (h : u.str.data = v.str.data) : u = v := by
  cases u
  cases v
  exact congrArg URI.mk (String.ext h)

lemma levelChars_split {d1 d2 : CallHierarchyDirection} {i1 i2 : CallHierarchyItem}
    {s1 s2 : List Char}
    (h : levelChars d1 i1 ++ s1 = levelChars d2 i2 ++ s2) :
    d1 = d2 ∧ i1 = i2 ∧ s1 = s2 := by
  unfold levelChars at h
  simp only [List.append_assoc] at h
  obtain ⟨hd, h⟩ := dirTag_split h
  rw [show (JSONstringifyURI i1.uri).data = '"' :: (escape i1.uri.str.data ++ ['"']) from rfl,
      show (JSONstringifyURI i2.uri).data = '"' :: (escape i2.uri.str.data ++ ['"']) from rfl,
      show (JSONstringifyRange i1.range).data = rangeChars i1.range from rfl,
      show (JSONstringifyRange i2.range).data = rangeChars i2.range from rfl] at h
  simp only [List.cons_append, List.append_assoc, List.singleton_append,
    List.cons.injEq, true_and] at h
  obtain ⟨hu, hr⟩ := escape_quote_inj h
  obtain ⟨hrg, hs⟩ := rangeChars_split hr
  have huri : i1.uri = i2.uri := URI.ext' hu
  refine ⟨hd, ?_, hs⟩
  cases i1
  cases i2
  simp_all

/-- The character list of an identity key for a chain of items. -/
def renderChain (d : CallHierarchyDirection) : List CallHierarchyItem → List Char
  | [] => []
  | it :: rest => levelChars d it ++ renderChain d rest

lemma getId_data (g : Unit → CallHierarchyDirection) (c : Call ε) :
    (IdentityProvider.getId g c).data = renderChain (g ()) (Call.chain c) := by
  induction c using IdentityProvider.getId.induct g with
  | case1 item locs m p ih =>
      simp only [IdentityProvider.getId, Call.chain, renderChain, levelChars,
        String.data_append, ih, List.append_assoc]
  | case2 item locs m =>
      simp only [IdentityProvider.getId, Call.chain, renderChain, levelChars,
        String.data_append, List.append_assoc, List.append_nil]

lemma levelChars_ne_nil (d : CallHierarchyDirection) (it : CallHierarchyItem) :
    levelChars d it ≠ [] := by
  unfold levelChars
  cases d <;> simp [dirTag]

lemma renderChain_inj_same (d : CallHierarchyDirection) :
    ∀ l1 l2 : List CallHierarchyItem,
      renderChain d l1 = renderChain d l2 → l1 = l2 := by
  intro l1
  induction l1 with
  | nil =>
      intro l2 h
      cases l2 with
      | nil => rfl
      | cons it rest =>
          exfalso
          simp only [renderChain] at h
          rcases List.append_eq_nil.mp h.symm with ⟨h1, -⟩
          exact levelChars_ne_nil d it h1
  | cons it1 rest1 ih =>
      intro l2 h
      cases l2 with
      | nil =>
          exfalso
          simp only [renderChain] at h
          rcases List.append_eq_nil.mp h with ⟨h1, -⟩
          exact levelChars_ne_nil d it1 h1
      | cons it2 rest2 =>
          simp only [renderChain] at h
          obtain ⟨-, hit, hrest⟩ := levelChars_split h
          rw [hit, ih rest2 hrest]

lemma renderChain_dir_inj {d1 d2 : CallHierarchyDirection}
    {l1 l2 : List CallHierarchyItem}
    (h : renderChain d1 l1 = renderChain d2 l2) (hne : l1 ≠ []) :
    d1 = d2 ∧ l1 = l2 := by
  cases l1 with
  | nil => exact absurd rfl hne
  | cons it1 rest1 =>
      cases l2 with
      | nil =>
          exfalso
          simp only [renderChain] at h
          rcases List.append_eq_nil.mp h with ⟨h1, -⟩
          exact levelChars_ne_nil d1 it1 h1
      | cons it2 rest2 =>
          simp only [renderChain] at h
          obtain ⟨hd, hit, hrest⟩ := levelChars_split h
          subst hd
          rw [hit, renderChain_inj_same d1 rest1 rest2 hrest]
          exact ⟨rfl, rfl⟩

lemma chain_ne_nil (c : Call ε) : Call.chain c ≠ [] := by
  cases c with
  | mk i l m p => cases p <;> simp [Call.chain]

lemma chain_head (c : Call ε) : ∃ rest, Call.chain c = c.item :: rest := by
  cases c with
  | mk i l m p => cases p <;> exact ⟨_, rfl⟩

/-- C3: two `Call`s with identical ancestor item chains get equal ids
under the same direction accessor; and for any `Call`, two direction
accessors returning different values yield different ids. -/
theorem getId_identity_stability (g g1 g2 : Unit → CallHierarchyDirection)
    (a b c : Call ε) :
    (Call.chain a = Call.chain b →
      IdentityProvider.getId g a = IdentityProvider.getId g b)
    ∧ (g1 () ≠ g2 () →
      IdentityProvider.getId g1 c ≠ IdentityProvider.getId g2 c) := by
  constructor
  · intro hch
    apply String.ext
    rw [getId_data, getId_data, hch]
  · intro hne heq
    have h := congrArg String.data heq
    rw [getId_data, getId_data] at h
    exact hne (renderChain_dir_inj h (chain_ne_nil c)).1

/-- C4: two `Call`s get equal ids iff their entire ancestor item chains
match and the directions at computation time match; in particular two
siblings (same parent) with different items get different ids under the
same direction. -/
theorem getId_identity_uniqueness (g g1 g2 : Unit → CallHierarchyDirection)
    (a b s t : Call ε) :
    (IdentityProvider.getId g1 a = IdentityProvider.getId g2 b ↔
      (g1 () = g2 () ∧ Call.chain a = Call.chain b))
    ∧ (s.parent = t.parent → s.item ≠ t.item →
      IdentityProvider.getId g s ≠ IdentityProvider.getId g t) := by
  have main : ∀ (gx gy : Unit → CallHierarchyDirection) (x y : Call ε),
      IdentityProvider.getId gx x = IdentityProvider.getId gy y ↔
        (gx () = gy () ∧ Call.chain x = Call.chain y) := by
    intro gx gy x y
    constructor
    · intro heq
      have h := congrArg String.data heq
      rw [getId_data, getId_data] at h
      exact renderChain_dir_inj h (chain_ne_nil x)
    · rintro ⟨hd, hch⟩
      apply String.ext
      rw [getId_data, getId_data, hd, hch]
  refine ⟨main g1 g2 a b, ?_⟩
  intro _hpar hitem heq
  obtain ⟨-, hch⟩ := (main g g s t).mp heq
  obtain ⟨r1, hr1⟩ := chain_head s
  obtain ⟨r2, hr2⟩ := chain_head t
  rw [hr1, hr2] at hch
  simp only [List.cons.injEq] at hch
  exact hitem hch.1

/-! ### Concrete sample data for witnesses -/

def rangeW : IRange := ⟨0, 0, 0, 0⟩

def rangeW2 : IRange := ⟨0, 5, 0, 0⟩

def itemA : CallHierarchyItem := ⟨⟨"file:a"⟩, rangeW⟩

def itemB : CallHierarchyItem := ⟨⟨"file:b"⟩, rangeW⟩

def itemC : CallHierarchyItem := ⟨⟨"file:c"⟩, rangeW⟩

def itemA2 : CallHierarchyItem := ⟨⟨"file:a"⟩, rangeW2⟩

def modelW : CallHierarchyModel String :=
  ⟨[itemA],
   fun _ _ => Except.ok [⟨itemB, [rangeW2]⟩],
   fun _ _ => Except.ok [⟨itemC, [rangeW2]⟩]⟩

def modelErr : CallHierarchyModel String :=
  ⟨[], fun _ _ => Except.error "timeout", fun _ _ => Except.error "timeout"⟩

def gFrom : Unit → CallHierarchyDirection := fun _ => CallHierarchyDirection.CallsFrom

def gTo : Unit → CallHierarchyDirection := fun _ => CallHierarchyDirection.CallsTo

def callA : Call String := Call.mk itemA none modelW none

def callA2 : Call String := Call.mk itemA (some []) modelW none

def callB : Call String := Call.mk itemB none modelW none

def callC : Call String := Call.mk itemC none modelW none

def callAcol : Call String := Call.mk itemA2 none modelW none

def callErr : Call String := Call.mk itemA none modelErr none

def callA_alt : Call String := Call.mk itemA (some []) modelErr (some callB)

def callB_alt : Call String := Call.mk itemB (some []) modelErr (some callA)

def locW : Location := Location.mk itemA.uri rangeW2

def childB : Call String := Call.mk itemB (some [locW]) modelW (some callA)

/-- Witness for C5 at concrete distinct calls. -/
theorem compare_is_total_three_way_order_witness :
    Call.compare callA callB ≠ 0 :=
  (compare_is_total_three_way_order callA callB callC
    (by decide) (by decide) (by decide)).1

/-- Witness for C6 at two concrete calls with equal uris. -/
theorem compare_tie_break_by_range_start_witness :
    Call.compare callA callAcol
      = Range.compareRangesUsingStarts callA.item.range callAcol.item.range :=
  (compare_tie_break_by_range_start callA callAcol rfl).1

/-- Witness for C7 at two concrete pairs with equal items but different
locations, model and parent. -/
theorem compare_depends_only_on_item_witness :
    Call.compare callA callB = Call.compare callA_alt callB_alt :=
  compare_depends_only_on_item callA callB callA_alt callB_alt rfl rfl rfl rfl

/-- Witness for C2 at a concrete model with one root. -/
theorem getChildren_model_roots_witness :
    modelW.roots[0]? = some itemA := by
  obtain ⟨cs, h1, -, h3⟩ := getChildren_model_roots gFrom modelW
  have hcs : cs = [Call.mk itemA none modelW none] := by
    have h2 : DataSource.getChildren gFrom (Sum.inl modelW)
        = Except.ok [Call.mk itemA none modelW none] := rfl
    rw [h1] at h2
    exact Except.ok.inj h2
  subst hcs
  exact (h3 0 (Call.mk itemA none modelW none) rfl).1

/-- Witness for C1 at a concrete outgoing expansion. -/
theorem getChildren_location_uris_witness : locW.uri = callA.item.uri :=
  (getChildren_location_uris gFrom callA [childB] rfl).1 rfl childB
    (List.mem_singleton.mpr rfl) [locW] rfl locW (List.mem_singleton.mpr rfl)

/-- Witness for C8 at a concrete produced child. -/
theorem getChildren_locations_iff_parent_witness :
    (childB.locations = none ↔ childB.parent = none) :=
  (getChildren_locations_iff_parent gFrom).2.2 (Sum.inr callA) [childB] rfl childB
    (List.mem_singleton.mpr rfl)

/-- Witness for C9 at a concrete failing model. -/
theorem getChildren_propagates_errors_witness :
    DataSource.getChildren gFrom (Sum.inr callErr) = Except.error "timeout" :=
  (getChildren_propagates_errors gFrom callErr "timeout").1 rfl rfl

/-- Witness for C10 at a concrete outgoing expansion. -/
theorem getChildren_call_shape_witness : childB.parent = some callA := by
  obtain ⟨cs, h1, -, h3⟩ :=
    (getChildren_call_shape gFrom callA).1 [OutgoingCall.mk itemB [rangeW2]] rfl rfl
  have hcs : cs = [childB] := by
    have h2 : DataSource.getChildren gFrom (Sum.inr callA) = Except.ok [childB] := rfl
    rw [h1] at h2
    exact Except.ok.inj h2
  subst hcs
  obtain ⟨oc, -, -, -, hpar, -⟩ := h3 0 childB rfl
  exact hpar

/-- Witness for C3: same chain gives equal ids; flipping the direction
accessor changes the id of a concrete call. -/
theorem getId_identity_stability_witness :
    IdentityProvider.getId gFrom callA = IdentityProvider.getId gFrom callA2
      ∧ IdentityProvider.getId gFrom callA ≠ IdentityProvider.getId gTo callA :=
  ⟨(getId_identity_stability gFrom gFrom gTo callA callA2 callA).1 rfl,
   (getId_identity_stability gFrom gFrom gTo callA callA2 callA).2 (by decide)⟩

/-- Witness for C4: two concrete sibling roots with different items get
different ids. -/
theorem getId_identity_uniqueness_witness :
    IdentityProvider.getId gFrom callA ≠ IdentityProvider.getId gFrom callB :=
  (getId_identity_uniqueness gFrom gFrom gFrom callA callB callA callB).2 rfl (by decide)
